import Mathlib

set_option maxHeartbeats 1000000

/-!
Verification of the generation-parameter resolution and post-processing
pipeline of the sui image-generation driver (src/sui.py, src/aspect.py).

Each Python function relevant to the claims is shallowly embedded as an
executable Lean definition: dictionaries become association lists or
functions `String → Option PVal`, Python integers become `Nat`/`Int`,
the one floating-point multiplier (`refinerupscale`) becomes `ℚ` with
Python's `int()` truncation made explicit, and the `while` loops become
fuelled structural recursions whose fuel is proved sufficient.

The file is laid out as the complete set of definitions first, followed
by all the lemmas and theorems.
-/

/-! # Definitions -/

/-! ## Parameter values

JSON-ish values stored in a SwarmUI parameter set (`image_params` in
sui.py): strings, integers, booleans, and the array-valued LoRA fields. -/

inductive PVal where
  | str (s : String)
  | num (n : Int)
  | boolV (b : Bool)
  | listV (l : List String)
deriving DecidableEq

/-- Parameter sets are modelled extensionally as partial maps from key to
value, mirroring a Python `dict` (presence = `isSome`). -/
abbrev Pm := String → Option PVal

/-- Insertion `params[k] = v` on a parameter map. -/
def pset (m : Pm) (k : String) (v : PVal) : Pm :=
  fun x => if x = k then some v else m x

/-- Deletion `del params[k]` on a parameter map (`del` of an absent key is
modelled as a no-op; the source always guards deletion with a membership
test, so the two coincide). -/
def pdel (m : Pm) (k : String) : Pm :=
  fun x => if x = k then none else m x

/-! ## DimensionResolver (sui.py `get_aspect_pixels`, lines 904-925;
identical algorithm in aspect.py `max_dimensions`, lines 14-45)

The ratio path of `get_aspect_pixels` computes floating-point ideal
dimensions `ideal_w = a_w * sqrt(side*side/(a_w*a_h))` (and symmetrically
`ideal_h`), truncates them with `int()`, snaps each down to the nearest
multiple of `rounding`, and then runs a budget-correction `while` loop.
The floating-point part is abstracted here: `ideal_w`/`ideal_h` below
stand for the already-truncated `int(ideal_w)`/`int(ideal_h)` (which are
non-negative for positive inputs), and every theorem is proved for all
possible values of that pair, hence for every floating-point outcome. -/

/-- Budget-correction loop of `get_aspect_pixels`:
`while width * height > side*side and width > 0 and height > 0:` decrement
the larger dimension (ties decrement width) by `rounding`.  The fuel
argument makes the recursion structural; fuel `width + height` is proved
sufficient for positive `rounding` (`budget_loop_exit`). -/
def budget_loop (side rounding : Nat) : Nat → Nat → Nat → Nat × Nat
  | 0, width, height => (width, height)
  | fuel + 1, width, height =>
    if side * side < width * height ∧ 0 < width ∧ 0 < height then
      if height ≤ width then
        budget_loop side rounding fuel (width - rounding) height
      else
        budget_loop side rounding fuel width (height - rounding)
    else (width, height)

/-- Ratio path of `get_aspect_pixels` (sui.py lines 914-925), with the
truncated floating-point ideal dimensions as explicit arguments: snap both
down to multiples of `rounding`, then run the budget-correction loop. -/
def get_aspect_pixels (ideal_w ideal_h side rounding : Nat) : Nat × Nat :=
  let width := ideal_w - ideal_w % rounding
  let height := ideal_h - ideal_h % rounding
  budget_loop side rounding (width + height) width height

/-! ## ResolutionFixupCompensator (sui.py `gen`, lines 633-652)

The `fix_resolution` block rounds the requested width/height up to the
next multiple of 64, and when either grew, records the centred crop box
`(delta_w, delta_h, old_w + delta_w, old_h + delta_h)` with each delta
half the padding, truncated; if `refinerupscale` is configured, every crop
coordinate is multiplied by that (float) factor and truncated with
`int()`.  The float factor is embedded as a rational with explicit
truncation toward zero. -/

/-- Round-up step `(old // 64 + 1) * 64` applied only when `old % 64 > 0`. -/
def roundUp64 (x : Nat) : Nat := if 0 < x % 64 then (x / 64 + 1) * 64 else x

/-- Python `int()` truncation toward zero on a rational. -/
def pytrunc (q : ℚ) : Int := if 0 ≤ q then ⌊q⌋ else -⌊-q⌋

/-- Scaling step `s.crop = tuple([int(mul * i) for i in s.crop])`. -/
def scaleCrop (mul : ℚ) (c : Int × Int × Int × Int) : Int × Int × Int × Int :=
  (pytrunc (mul * c.1), pytrunc (mul * c.2.1),
   pytrunc (mul * c.2.2.1), pytrunc (mul * c.2.2.2))

/-- Embedding of sui.py lines 633-652: round both dimensions up to /64,
and when either grew return the centred crop box (scaled by the optional
upscale factor); otherwise no crop box (`s.crop = ()`). -/
def compensate (old_w old_h : Nat) (upscale : Option ℚ) :
    Nat × Nat × Option (Int × Int × Int × Int) :=
  let new_w := roundUp64 old_w
  let new_h := roundUp64 old_h
  if old_w < new_w ∨ old_h < new_h then
    let delta_w := (new_w - old_w) / 2
    let delta_h := (new_h - old_h) / 2
    let crop : Int × Int × Int × Int :=
      ((delta_w : Int), (delta_h : Int),
       ((old_w + delta_w : Nat) : Int), ((old_h + delta_h : Nat) : Int))
    match upscale with
    | some mul => (new_w, new_h, some (scaleCrop mul crop))
    | none => (new_w, new_h, some crop)
  else (new_w, new_h, none)

/-! ## ParameterMerger (sui.py `swarmui.merge_params`, lines 179-188)

`merge_params` folds the given parameter sets left to right; for each
key/value pair, a value equal to the sentinel `'unset'` deletes the key
when it is already present, and otherwise the pair is stored (including,
notably, storing the literal string `'unset'` when the key is absent). -/

/-- Processing of a single key/value pair inside `merge_params`. -/
def merge_item (acc : Pm) (kv : String × PVal) : Pm :=
  if kv.2 = PVal.str "unset" ∧ (acc kv.1).isSome then pdel acc kv.1
  else pset acc kv.1 kv.2

/-- Processing of one input parameter set (`for item in s`). -/
def merge_set (acc : Pm) (s : List (String × PVal)) : Pm :=
  s.foldl merge_item acc

/-- Embedding of `swarmui.merge_params`: fold all sets into an initially
empty accumulator. -/
def merge_params (sets : List (List (String × PVal))) : Pm :=
  sets.foldl merge_set (fun _ => none)

/-- Guard used for the amended C3: every `'unset'` pair in the stream of
key/value pairs finds its key already present in the accumulator at the
moment it is processed. -/
def no_blind_unset (acc : Pm) : List (String × PVal) → Bool
  | [] => true
  | kv :: rest =>
    (!(kv.2 == PVal.str "unset") || (acc kv.1).isSome) &&
      no_blind_unset (merge_item acc kv) rest

/-- The guard `no_blind_unset` extended across the list of input sets. -/
def no_blind_unset_sets (acc : Pm) : List (List (String × PVal)) → Bool
  | [] => true
  | s :: rest => no_blind_unset acc s && no_blind_unset_sets (merge_set acc s) rest

/-! ## Forwarded generation request (sui.py `swarmui.generate_image`,
lines 144-167, and `invalid_params`, lines 28-34)

`generate_image` mutates the parameter dict before posting it: it stores
the session id, the image count, defaults `imageformat`, sets `donotsave`
when the client is not saving on the server, deletes every key of
`invalid_params`, and joins the array-valued LoRA fields into
comma-separated strings.  The HTTP post itself is external; the embedded
function returns the parameter map as forwarded. -/

def invalid_params : List String :=
  ["swarm_version", "rounding", "fix_resolution", "host", "port"]

def array_fixups : List String :=
  ["loras", "loraweights", "loratencweights", "lorasectionconfinement"]

/-- Embedding of `_array2str` (sui.py lines 403-406) applied at key `k`:
convert a list value to a comma-separated string, otherwise no-op. -/
def array2str (p : Pm) (k : String) : Pm :=
  match p k with
  | some (PVal.listV l) => pset p k (PVal.str (String.intercalate "," l))
  | _ => p

/-- Parameter map actually forwarded to `/API/GenerateText2Image` by
`swarmui.generate_image` (sui.py lines 144-159). -/
def generate_image_request (params : Pm) (session : PVal)
    (save_on_server : Bool) : Pm :=
  let p1 := pset params "session_id" session
  let p2 := pset p1 "images" (PVal.num 1)
  let p3 := if (p2 "imageformat").isNone then pset p2 "imageformat" (PVal.str "PNG") else p2
  let p4 := if save_on_server then p3 else pset p3 "donotsave" (PVal.boolV true)
  let p5 := invalid_params.foldl pdel p4
  array_fixups.foldl array2str p5

/-- Embedding of the `gen` caller path (sui.py lines 614-631 and 673):
resolve the aspect dimensions, store them in `image_params`, and forward
the parameter set via `generate_image` — the source performs no zero-area
check between dimension resolution and submission. -/
def gen_submit_dims (image_params : Pm) (ideal_w ideal_h side rounding : Nat)
    (session : PVal) (save_on_server : Bool) : Pm :=
  let wh := get_aspect_pixels ideal_w ideal_h side rounding
  let p := pset (pset image_params "width" (PVal.num wh.1)) "height" (PVal.num wh.2)
  generate_image_request p session save_on_server

/-! ## CatalogResolver (sui.py `substring_match`, lines 871-881)

`substring_match` filters the catalog names by case-insensitive (via
`str.casefold`) substring containment of the query, raises a usage error
listing all matches when more than one name matches, raises a not-found
usage error when none matches, and otherwise returns the unique match.
Strings are embedded as `List Char`; `casefold` is embedded as ASCII
lowercasing, which agrees with Python's casefold on the ASCII model,
LoRA, and LUT names this tool handles. -/

/-- ASCII lowercasing of a single character. -/
def foldChar (c : Char) : Char :=
  if 'A' ≤ c ∧ c ≤ 'Z' then Char.ofNat (c.toNat + 32) else c

/-- Embedding of `str.casefold` restricted to ASCII. -/
def casefold (s : List Char) : List Char := s.map foldChar

/-- Decides whether `needle` is a prefix of `hay`. -/
def isPrefixL : List Char → List Char → Bool
  | [], _ => true
  | _ :: _, [] => false
  | a :: as, b :: bs => a == b && isPrefixL as bs

/-- Decides Python's substring containment `needle in hay`. -/
def isSubL (needle : List Char) : List Char → Bool
  | [] => needle.isEmpty
  | hay@(_ :: rest) => isPrefixL needle hay || isSubL needle rest

/-- Outcome of `substring_match`: the two `click.UsageError` exits are the
`ambiguous` (carrying all matches, as listed in the error message) and
`notFound` constructors. -/
inductive MatchResult where
  | found (name : List Char)
  | ambiguous (names : List (List Char))
  | notFound
deriving DecidableEq

/-- Embedding of `substring_match` (sui.py lines 871-881). -/
def substring_match (item : List Char) (match_list : List (List Char)) :
    MatchResult :=
  let found := match_list.filter fun x => isSubL (casefold item) (casefold x)
  if 1 < found.length then MatchResult.ambiguous found
  else if found.length = 0 then MatchResult.notFound
  else MatchResult.found found.headI

/-! ## LoRA de-duplication (sui.py `gen`, lines 562-583)

When `--loras` options are given, `gen` first removes from the option
list every reference that has a `:`-suffix and whose name part is already
an element of the parameter set's `loras` list, then resolves each
remaining reference with `substring_match` and appends name and weight to
the accumulated lists. -/

/-- Python `':' in lora`. -/
def hasColon (s : List Char) : Bool := s.contains ':'

/-- Name part of `lora.split(':', 1)`: the characters before the first
colon. -/
def nameOf (s : List Char) : List Char := s.takeWhile (fun c => !(c == ':'))

/-- Remainder of `lora.split(':', 1)`: the characters after the first
colon. -/
def restOf (s : List Char) : List Char := (s.dropWhile (fun c => !(c == ':'))).tail

/-- De-duplication loop (sui.py lines 565-572): starting from a copy of
the option list, remove (first occurrence, Python `list.remove`) every
reference whose `:`-split name part is already in the existing `loras`
list. -/
def dedup_loras (cli existing : List (List Char)) : List (List Char) :=
  cli.foldl (fun acc lora =>
    if hasColon lora && existing.contains (nameOf lora) then acc.erase lora
    else acc) cli

/-- Resolution-and-append step for one kept reference (sui.py lines
575-583): split off the weight, resolve the name against the LoRA
catalog, and append the full name and the weight; a non-unique match
aborts the run (`none`). -/
def lora_step (catalog : List (List Char))
    (acc : List (List Char) × List (List Char)) (lora : List Char) :
    Option (List (List Char) × List (List Char)) :=
  match substring_match (if hasColon lora then nameOf lora else lora) catalog with
  | MatchResult.found m =>
      some (acc.1 ++ [m], acc.2 ++ [if hasColon lora then restOf lora else ['1']])
  | _ => none

/-- De-duplication followed by resolution and appending, accumulating on
the existing `loras`/`loraweights` lists. -/
def gen_lora_phase (catalog : List (List Char))
    (cli existing existingW : List (List Char)) :
    Option (List (List Char) × List (List Char)) :=
  (dedup_loras cli existing).foldlM (lora_step catalog) (existing, existingW)

/-! ## PostProcessPipeline (sui.py `process`, lines 281-365)

`process.apply` receives a dict of operations and applies them to a PIL
image in a fixed textual order: `crop`, `size`, `sharp`, `jpg`, then
`save`; `meta` and `source` are carried along and only consumed by the
`save` branch.  The image is abstracted as its dimensions, its PIL
`format` flag (JPEG or not — transforms reset it, the in-memory JPEG
round trip sets it), and the exact sequence of transforms applied to the
pixel data; two images are bit-identical exactly when they are equal.
The actual pixel filtering, JPEG codec, and metadata writing are external
(PIL/exiftool); the write is recorded as a `SaveRec`. -/

inductive ImgOp where
  | cropOp (box : Nat × Nat × Nat × Nat)
  | resizeOp (pct : Nat)
  | sharpOp (r : ℚ) (p t : Int)
  | jpgOp (quality : Nat)
deriving DecidableEq

/-- Abstract image state. -/
structure Img where
  width : Nat
  height : Nat
  isJpeg : Bool
  history : List ImgOp
deriving DecidableEq

/-- Values stored in the operation dict of `process` (comment block at
sui.py lines 291-300). -/
inductive OpVal where
  | cropV (box : Nat × Nat × Nat × Nat)
  | sizeV (pct : Nat)
  | sharpV (r : ℚ) (p t : Int)
  | jpgV (q : Option Int)
  | metaV (s : String)
  | sourceV (s : String)
  | saveV (f : String)
deriving DecidableEq

/-- The operation dict, as the association list in which it was
populated; `'crop' in op` becomes a `lookupOp` test. -/
abbrev Ops := List (String × OpVal)

def lookupOp (ops : Ops) (k : String) : Option OpVal := List.lookup k ops

/-- PIL `image.crop(box)`: new size `(right - left, bottom - top)`; the
transform resets the format flag. -/
def docrop (b : Nat × Nat × Nat × Nat) (i : Img) : Img :=
  ⟨b.2.2.1 - b.1, b.2.2.2 - b.2.1, false, i.history ++ [ImgOp.cropOp b]⟩

/-- `image.resize((int(image.width * size/100), int(image.height * size/100)))`. -/
def doresize (pct : Nat) (i : Img) : Img :=
  ⟨i.width * pct / 100, i.height * pct / 100, false,
   i.history ++ [ImgOp.resizeOp pct]⟩

/-- `image.filter(ImageFilter.UnsharpMask(...))`: dimensions unchanged. -/
def dosharp (r : ℚ) (p t : Int) (i : Img) : Img :=
  ⟨i.width, i.height, false, i.history ++ [ImgOp.sharpOp r p t]⟩

/-- In-memory JPEG round trip (save to a buffer and re-open): dimensions
unchanged, format becomes JPEG. -/
def dojpg (q : Nat) (i : Img) : Img :=
  ⟨i.width, i.height, true, i.history ++ [ImgOp.jpgOp q]⟩

/-- Quality selection of the `jpg` branch: 85 unless the stored value is
an int strictly between 0 and 100. -/
def jpgQuality : Option Int → Nat
  | some n => if 0 < n ∧ n < 100 then n.toNat else 85
  | none => 85

/-- The `if 'crop' in op:` block. -/
def cropStage (ops : Ops) (i : Img) : Img :=
  match lookupOp ops "crop" with
  | some (OpVal.cropV b) => docrop b i
  | _ => i

/-- The `if 'size' in op:` block (resize only when the percentage is
below 100). -/
def sizeStage (ops : Ops) (i : Img) : Img :=
  match lookupOp ops "size" with
  | some (OpVal.sizeV p) => if p < 100 then doresize p i else i
  | _ => i

/-- The `if 'sharp' in op:` block. -/
def sharpStage (ops : Ops) (i : Img) : Img :=
  match lookupOp ops "sharp" with
  | some (OpVal.sharpV r p t) => dosharp r p t i
  | _ => i

/-- The `if 'jpg' in op:` block. -/
def jpgStage (ops : Ops) (i : Img) : Img :=
  match lookupOp ops "jpg" with
  | some (OpVal.jpgV q) => dojpg (jpgQuality q) i
  | _ => i

def metaOf (ops : Ops) : Option String :=
  match lookupOp ops "meta" with
  | some (OpVal.metaV s) => some s
  | _ => none

def sourceOf (ops : Ops) : Option String :=
  match lookupOp ops "source" with
  | some (OpVal.sourceV s) => some s
  | _ => none

def saveOf (ops : Ops) : Option String :=
  match lookupOp ops "save" with
  | some (OpVal.saveV f) => some f
  | _ => none

/-- Record of a write performed by the `save` branch: destination file,
the provenance metadata and source string embedded into it (as PNG
`parameters` text or JPEG EXIF fields — codec details are external),
whether the JPEG path was taken, and the exact image written. -/
structure SaveRec where
  filename : String
  meta : Option String
  source : Option String
  asJpeg : Bool
  image : Img
deriving DecidableEq

/-- The `save` branch of `process.apply` (sui.py lines 343-361).  The
metadata embedding is unconditional in the source, so a missing `meta`
raises: on the JPEG path `image.save` (inside try/except) has already
written the file when `json.dumps(json.loads(image_meta))` raises
`TypeError` on `None`; on the PNG path
`PngInfo.add_text('parameters', image_meta)` raises `AttributeError` on
`None` before `image.save`, so nothing is written.  The returned pair is
the write that happened (if any) and whether an exception was raised
(`true` means `apply` does not return).  With `meta` present the
embedding succeeds on both paths (the JSON round trip of a metadata
string produced by the service is the identity and is abstracted). -/
def saveStep (f : String) (meta source : Option String) (image4 : Img) :
    Option SaveRec × Bool :=
  match meta with
  | some m => (some ⟨f, some m, source, image4.isJpeg, image4⟩, false)
  | none =>
    if image4.isJpeg then (some ⟨f, none, source, true, image4⟩, true)
    else (none, true)

/-- Embedding of `process.apply` (sui.py lines 315-362): the fixed
crop/size/sharp/jpg sequence followed by the optional save.  The result
is the in-memory image at the end (or at the raise point), the write
performed, and whether an exception was raised. -/
def process_apply (ops : Ops) (image : Img) : Img × Option SaveRec × Bool :=
  let image1 := cropStage ops image
  let image2 := sizeStage ops image1
  let image3 := sharpStage ops image2
  let image4 := jpgStage ops image3
  match lookupOp ops "save" with
  | some (OpVal.saveV f) =>
      (image4, saveStep f (metaOf ops) (sourceOf ops) image4)
  | _ => (image4, none, false)

/-- History contribution of the `crop` block. -/
def cropHist (ops : Ops) : List ImgOp :=
  match lookupOp ops "crop" with
  | some (OpVal.cropV b) => [ImgOp.cropOp b]
  | _ => []

/-- History contribution of the `size` block. -/
def sizeHist (ops : Ops) : List ImgOp :=
  match lookupOp ops "size" with
  | some (OpVal.sizeV p) => if p < 100 then [ImgOp.resizeOp p] else []
  | _ => []

/-- History contribution of the `sharp` block. -/
def sharpHist (ops : Ops) : List ImgOp :=
  match lookupOp ops "sharp" with
  | some (OpVal.sharpV r p t) => [ImgOp.sharpOp r p t]
  | _ => []

/-- History contribution of the `jpg` block. -/
def jpgHist (ops : Ops) : List ImgOp :=
  match lookupOp ops "jpg" with
  | some (OpVal.jpgV q) => [ImgOp.jpgOp (jpgQuality q)]
  | _ => []

/-- The transform history contributed by one `process.apply` call, in the
fixed order crop, size, sharp, jpg. -/
def appliedOps (ops : Ops) : List ImgOp :=
  cropHist ops ++ sizeHist ops ++ sharpHist ops ++ jpgHist ops

/-! ## SequencedNamer (sui.py `format_filename`, lines 884-901, and the
collision loop in `gen`, lines 657-675)

`format_filename` renders the user template with
`Template(template).safe_substitute(...)`: known placeholders (`pre`,
`set`, `seq`, `ext`, `ymd`, `hms`) are substituted — `seq` as
`str(seq).zfill(pad)` — and unknown placeholders are left verbatim,
in both their `$name` and `${name}` forms.  The template is embedded in
parsed form, as the token list produced by `string.Template`'s scanner
(literals, `$name` placeholders, `${name}` placeholders), together with
the raw template text recovered from the tokens; the guard of the
collision loop is the source's regex test `re.search(r'\$seq', template)`
on that raw text, which is *not* the same as containing a `seq`
placeholder: a `${seq}` placeholder does not match the regex, and a
placeholder merely starting with `seq` (such as `$seqx`) does.  The
collision loop returns `none` when its fuel runs out while the guard
still holds, which models the source's non-termination in that
situation.  The filesystem is embedded as the list of existing names
(`os.path.isfile`). -/

inductive Tok where
  | lit (s : List Char)
  | var (v : List Char)
  | braced (v : List Char)
deriving DecidableEq

/-- The two brace characters, written by code point. -/
def lbrace : Char := Char.ofNat 123

def rbrace : Char := Char.ofNat 125

def seqName : List Char := ['s', 'e', 'q']

def digitChar (d : Nat) : Char :=
  match d with
  | 0 => '0'
  | 1 => '1'
  | 2 => '2'
  | 3 => '3'
  | 4 => '4'
  | 5 => '5'
  | 6 => '6'
  | 7 => '7'
  | 8 => '8'
  | _ => '9'

/-- Decimal rendering of a natural number, Python `str(n)`; fuelled
structural recursion (fuel `n + 1` always suffices). -/
def toDecAux : Nat → Nat → List Char → List Char
  | 0, _, acc => acc
  | fuel + 1, n, acc =>
    if n < 10 then digitChar n :: acc
    else toDecAux fuel (n / 10) (digitChar (n % 10) :: acc)

def toDecimal (n : Nat) : List Char := toDecAux (n + 1) n []

/-- Python `str(n).zfill(pad)`. -/
def zfill (pad n : Nat) : List Char :=
  List.replicate (pad - (toDecimal n).length) '0' ++ toDecimal n

/-- Decimal decoder, used to prove that `zfill` is injective. -/
def decval (s : List Char) : Nat :=
  s.foldl (fun a c => 10 * a + (c.toNat - 48)) 0

/-- One pass of `Template.safe_substitute`: substitute known variables,
leave unknown placeholders verbatim (with their dollar sign). -/
def renderL (vars : List Char → Option (List Char)) : List Tok → List Char
  | [] => []
  | Tok.lit s :: rest => s ++ renderL vars rest
  | Tok.var v :: rest =>
    (match vars v with
     | some s => s
     | none => '$' :: v) ++ renderL vars rest
  | Tok.braced v :: rest =>
    (match vars v with
     | some s => s
     | none => '$' :: lbrace :: (v ++ [rbrace])) ++ renderL vars rest

/-- The substitution map of `format_filename` with the `seq` binding
added; the `pre`, `set`, `ext`, `ymd`, `hms` bindings are the `vars`
parameter. -/
def withSeq (vars : List Char → Option (List Char)) (pad seq : Nat) :
    List Char → Option (List Char) :=
  fun v => if v = seqName then some (zfill pad seq) else vars v

/-- Embedding of `format_filename` for a parsed template. -/
def format_filename (tmpl : List Tok) (vars : List Char → Option (List Char))
    (pad seq : Nat) : List Char :=
  renderL (withSeq vars pad seq) tmpl

/-- Raw text of one token, as `string.Template` scanned it. -/
def tokRaw : Tok → List Char
  | Tok.lit s => s
  | Tok.var v => '$' :: v
  | Tok.braced v => '$' :: lbrace :: (v ++ [rbrace])

/-- Raw template text recovered from the token list. -/
def rawText : List Tok → List Char
  | [] => []
  | t :: rest => tokRaw t ++ rawText rest

/-- The four characters the guard regex looks for. -/
def dollarSeq : List Char := '$' :: seqName

/-- Guard of the collision loop, embedding
`re.search(r'\$seq', template)`: a literal substring search for `$seq`
in the raw template text. -/
def hasDollarSeq (tmpl : List Tok) : Bool := isSubL dollarSeq (rawText tmpl)

/-- Presence of an actual `seq` placeholder (either form) — the notion
the claim speaks about, distinct from the guard `hasDollarSeq`. -/
def hasSeqPlaceholder (tmpl : List Tok) : Bool :=
  tmpl.contains (Tok.var seqName) || tmpl.contains (Tok.braced seqName)

/-- Length of the seq-independent part of a rendered template. -/
def baseLen (vars : List Char → Option (List Char)) : List Tok → Nat
  | [] => 0
  | Tok.lit s :: rest => s.length + baseLen vars rest
  | Tok.var v :: rest =>
    (if v = seqName then 0
     else
       match vars v with
       | some s => s.length
       | none => v.length + 1) + baseLen vars rest
  | Tok.braced v :: rest =>
    (if v = seqName then 0
     else
       match vars v with
       | some s => s.length
       | none => v.length + 3) + baseLen vars rest

/-- Number of `seq` placeholders (either form) in a template. -/
def seqCount : List Tok → Nat
  | [] => 0
  | Tok.lit _ :: rest => seqCount rest
  | Tok.var v :: rest => (if v = seqName then 1 else 0) + seqCount rest
  | Tok.braced v :: rest => (if v = seqName then 1 else 0) + seqCount rest

/-- Collision loop of `gen` (sui.py lines 660-667): while the rendered
name exists on disk, break if the raw template text does not match
`\$seq` (returning the same fixed name, existing or not), else increment
`seq` and re-render.  Each fuel unit is one guard evaluation; `none`
means the fuel ran out while the guard still held, i.e. the Python loop
has not terminated within that many iterations (and, when the rendering
is constant in `seq`, never does). -/
def choose_name (fs : List (List Char)) (tmpl : List Tok)
    (vars : List Char → Option (List Char)) (pad : Nat) :
    Nat → Nat → Option (List Char × Nat)
  | 0, seq =>
    if fs.contains (format_filename tmpl vars pad seq) && hasDollarSeq tmpl then
      none
    else some (format_filename tmpl vars pad seq, seq)
  | fuel + 1, seq =>
    if fs.contains (format_filename tmpl vars pad seq) && hasDollarSeq tmpl then
      choose_name fs tmpl vars pad fuel (seq + 1)
    else some (format_filename tmpl vars pad seq, seq)

/-- Naming step of one `gen` iteration: run the collision loop, then
`seq += 1` after the image is generated (sui.py line 675); when the loop
terminates, returns the chosen output name and the sequence value for
the next image.  Fuel `fs.length + 1` is proved sufficient whenever the
template has a real `seq` placeholder. -/
def gen_next_name (fs : List (List Char)) (tmpl : List Tok)
    (vars : List Char → Option (List Char)) (pad seq0 : Nat) :
    Option (List Char × Nat) :=
  (choose_name fs tmpl vars pad (fs.length + 1) seq0).map
    (fun r => (r.1, r.2 + 1))

/-- Parsed form of the default template `$pre-$set-$seq.$ext` restricted
to the placeholders exercised by the witness. -/
def namer_example_tmpl : List Tok :=
  [Tok.var ('p' :: 'r' :: 'e' :: []), Tok.lit ('-' :: []),
   Tok.var seqName, Tok.lit ('.' :: []), Tok.var ('e' :: 'x' :: 't' :: [])]

/-- Variable bindings for the witness: `pre = genai`, `ext = png`. -/
def namer_example_vars : List Char → Option (List Char) :=
  fun v =>
    if v = ('p' :: 'r' :: 'e' :: []) then some "genai".toList
    else if v = ('e' :: 'x' :: 't' :: []) then some "png".toList
    else none

/-- The braced-placeholder template `genai-${seq}.png` used by the C6
counterexample: `safe_substitute` substitutes `seq`, but the guard regex
`\$seq` does not match the raw text. -/
def braced_example_tmpl : List Tok :=
  [Tok.lit "genai-".toList, Tok.braced seqName, Tok.lit ".png".toList]

/-! # Theorems -/

/-! ## DimensionResolver lemmas and C1 -/

theorem sub_round_mod (x rounding : Nat) (hx : x % rounding = 0) :
    (x - rounding) % rounding = 0 := by
  obtain ⟨k, hk⟩ := Nat.dvd_of_mod_eq_zero hx
  subst hk
  cases k with
  | zero => simp
  | succ m =>
    rw [Nat.mul_succ, Nat.add_sub_cancel]
    exact Nat.mul_mod_right rounding m

theorem snap_mod (a b : Nat) : (a - a % b) % b = 0 := by
  have h : a - a % b = b * (a / b) :=
    Nat.sub_eq_of_eq_add (Nat.div_add_mod a b).symm
  rw [h]
  exact Nat.mul_mod_right _ _

theorem budget_loop_mod (side rounding : Nat) :
    ∀ fuel width height, width % rounding = 0 → height % rounding = 0 →
      (budget_loop side rounding fuel width height).1 % rounding = 0 ∧
      (budget_loop side rounding fuel width height).2 % rounding = 0 := by
  intro fuel
  induction fuel with
  | zero => intro w h hw hh; exact ⟨hw, hh⟩
  | succ n ih =>
    intro w h hw hh
    by_cases hc : side * side < w * h ∧ 0 < w ∧ 0 < h
    · by_cases hwh : h ≤ w
      · simp only [budget_loop, if_pos hc, if_pos hwh]
        exact ih (w - rounding) h (sub_round_mod w rounding hw) hh
      · simp only [budget_loop, if_pos hc, if_neg hwh]
        exact ih w (h - rounding) hw (sub_round_mod h rounding hh)
    · simp only [budget_loop, if_neg hc]
      exact ⟨hw, hh⟩

theorem budget_loop_exit (side rounding : Nat) (hr : 0 < rounding) :
    ∀ fuel width height, width + height ≤ fuel →
      ¬ (side * side <
            (budget_loop side rounding fuel width height).1 *
            (budget_loop side rounding fuel width height).2 ∧
          0 < (budget_loop side rounding fuel width height).1 ∧
          0 < (budget_loop side rounding fuel width height).2) := by
  intro fuel
  induction fuel with
  | zero =>
    intro w h hf
    simp only [budget_loop]
    rintro ⟨-, hw, -⟩
    omega
  | succ n ih =>
    intro w h hf
    by_cases hc : side * side < w * h ∧ 0 < w ∧ 0 < h
    · by_cases hwh : h ≤ w
      · simp only [budget_loop, if_pos hc, if_pos hwh]
        exact ih (w - rounding) h (by omega)
      · simp only [budget_loop, if_pos hc, if_neg hwh]
        exact ih w (h - rounding) (by omega)
    · simp only [budget_loop, if_neg hc]
      exact hc

/-- C1: for every positive side length, positive rounding factor, and (via
the abstracted truncated ideal dimensions) every positive aspect pair on
the ratio path, `get_aspect_pixels` returns a width and height that are
both non-negative multiples of the rounding factor and whose product is at
most `side * side`.  Non-negativity is inherent in the `Nat` result type,
matching Python where the loop can only stop at a non-negative multiple. -/
theorem get_aspect_pixels_spec (ideal_w ideal_h side rounding : Nat)
    (hr : 0 < rounding) :
    (get_aspect_pixels ideal_w ideal_h side rounding).1 % rounding = 0 ∧
    (get_aspect_pixels ideal_w ideal_h side rounding).2 % rounding = 0 ∧
    (get_aspect_pixels ideal_w ideal_h side rounding).1 *
      (get_aspect_pixels ideal_w ideal_h side rounding).2 ≤ side * side := by
  unfold get_aspect_pixels
  have hwm := snap_mod ideal_w rounding
  have hhm := snap_mod ideal_h rounding
  have hmods := budget_loop_mod side rounding
    ((ideal_w - ideal_w % rounding) + (ideal_h - ideal_h % rounding))
    (ideal_w - ideal_w % rounding) (ideal_h - ideal_h % rounding) hwm hhm
  have hexit := budget_loop_exit side rounding hr
    ((ideal_w - ideal_w % rounding) + (ideal_h - ideal_h % rounding))
    (ideal_w - ideal_w % rounding) (ideal_h - ideal_h % rounding) le_rfl
  refine ⟨hmods.1, hmods.2, ?_⟩
  by_contra hgt
  have hlt := Nat.lt_of_not_le hgt
  apply hexit
  refine ⟨hlt, ?_, ?_⟩
  · rcases Nat.eq_zero_or_pos (budget_loop side rounding
      ((ideal_w - ideal_w % rounding) + (ideal_h - ideal_h % rounding))
      (ideal_w - ideal_w % rounding) (ideal_h - ideal_h % rounding)).1 with hz | hp
    · rw [hz] at hlt; simp at hlt
    · exact hp
  · rcases Nat.eq_zero_or_pos (budget_loop side rounding
      ((ideal_w - ideal_w % rounding) + (ideal_h - ideal_h % rounding))
      (ideal_w - ideal_w % rounding) (ideal_h - ideal_h % rounding)).2 with hz | hp
    · rw [hz] at hlt; simp at hlt
    · exact hp

/-- Witness for C1 at the spec's 16:9 example: side 1024, rounding 64,
truncated ideal dimensions 1365 and 768. -/
theorem get_aspect_pixels_spec_witness :
    (get_aspect_pixels 1365 768 1024 64).1 % 64 = 0 ∧
    (get_aspect_pixels 1365 768 1024 64).2 % 64 = 0 ∧
    (get_aspect_pixels 1365 768 1024 64).1 *
      (get_aspect_pixels 1365 768 1024 64).2 ≤ 1024 * 1024 :=
  get_aspect_pixels_spec 1365 768 1024 64 (by decide)

/-! ## ResolutionFixupCompensator: C2 -/

/-- C2: `compensate` rounds each dimension up to the next multiple of 64
(unchanged when already a multiple, forced by the three bounds), returns
the centred crop box `(delta_w, delta_h, old_w + delta_w, old_h + delta_h)`
with delta half the padding truncated exactly when a dimension grew,
multiplies every crop coordinate by the upscale factor with truncation
when one is configured, and on (1000, 1000) yields 1024 x 1024 with the
centred 1000 x 1000 box (12, 12, 1012, 1012). -/
theorem compensate_spec :
    (∀ w h u, (compensate w h u).1 = roundUp64 w ∧
      (compensate w h u).2.1 = roundUp64 h) ∧
    (∀ w : Nat, w ≤ roundUp64 w ∧ roundUp64 w % 64 = 0 ∧
      roundUp64 w < w + 64) ∧
    (∀ w h : Nat, (compensate w h none).2.2 =
      if w < roundUp64 w ∨ h < roundUp64 h then
        some ((((roundUp64 w - w) / 2 : Nat) : Int),
              (((roundUp64 h - h) / 2 : Nat) : Int),
              ((w + (roundUp64 w - w) / 2 : Nat) : Int),
              ((h + (roundUp64 h - h) / 2 : Nat) : Int))
      else none) ∧
    (∀ (w h : Nat) (mul : ℚ), (compensate w h (some mul)).2.2 =
      Option.map (scaleCrop mul) ((compensate w h none).2.2)) ∧
    compensate 1000 1000 none = (1024, 1024, some (12, 12, 1012, 1012)) := by
  refine ⟨?_, ?_, ?_, ?_, ?_⟩
  · intro w h u
    by_cases hc : w < roundUp64 w ∨ h < roundUp64 h
    · cases u <;> simp [compensate, hc]
    · cases u <;> simp [compensate, hc]
  · intro w
    unfold roundUp64
    by_cases hm : 0 < w % 64
    · rw [if_pos hm]
      refine ⟨?_, ?_, ?_⟩ <;> omega
    · rw [if_neg hm]
      refine ⟨le_rfl, by omega, by omega⟩
  · intro w h
    by_cases hc : w < roundUp64 w ∨ h < roundUp64 h
    · simp [compensate, hc]
    · simp [compensate, hc]
  · intro w h mul
    by_cases hc : w < roundUp64 w ∨ h < roundUp64 h
    · simp [compensate, hc]
    · simp [compensate, hc]
  · decide

/-! ## ParameterMerger: C3 -/

/-- C3 counterexample: merging a single set that maps `a` to the sentinel
`'unset'` produces a result in which `a` maps to the literal string
`'unset'`: in the `else` branch of `merge_params`, a sentinel value whose
key is absent from the accumulator is stored verbatim, so the claimed
invariant fails. -/
theorem merge_params_unset_counterexample :
    merge_params [[("a", PVal.str "unset")]] "a" = some (PVal.str "unset") := by
  decide

theorem merge_set_no_unset (s : List (String × PVal)) :
    ∀ acc : Pm, (∀ k, acc k ≠ some (PVal.str "unset")) →
      no_blind_unset acc s = true →
      ∀ k, merge_set acc s k ≠ some (PVal.str "unset") := by
  induction s with
  | nil => intro acc hacc _ k; exact hacc k
  | cons kv rest ih =>
    intro acc hacc hnb k
    simp only [no_blind_unset, Bool.and_eq_true, Bool.or_eq_true,
      Bool.not_eq_true'] at hnb
    obtain ⟨h1, h2⟩ := hnb
    refine ih (merge_item acc kv) ?_ h2 k
    intro k'
    unfold merge_item
    by_cases hu : kv.2 = PVal.str "unset" ∧ (acc kv.1).isSome
    · rw [if_pos hu]
      unfold pdel
      by_cases hk : k' = kv.1
      · simp [hk]
      · simp only [if_neg hk]; exact hacc k'
    · rw [if_neg hu]
      unfold pset
      by_cases hk : k' = kv.1
      · simp only [if_pos hk]
        intro hcontra
        have hkv : kv.2 = PVal.str "unset" := Option.some.inj hcontra
        rcases h1 with h1 | h1
        · rw [hkv] at h1; simp at h1
        · exact hu ⟨hkv, h1⟩
      · simp only [if_neg hk]; exact hacc k'

theorem merge_params_acc_no_unset :
    ∀ (sets : List (List (String × PVal))) (acc : Pm),
      (∀ k, acc k ≠ some (PVal.str "unset")) →
      no_blind_unset_sets acc sets = true →
      ∀ k, sets.foldl merge_set acc k ≠ some (PVal.str "unset") := by
  intro sets
  induction sets with
  | nil => intro acc hacc _ k; exact hacc k
  | cons s rest ih =>
    intro acc hacc hnb k
    simp only [no_blind_unset_sets, Bool.and_eq_true] at hnb
    exact ih (merge_set acc s) (merge_set_no_unset s acc hacc hnb.1) hnb.2 k

/-- C3 (amended): the merged result can map a key to the sentinel only
when some set wrote `'unset'` for a key absent from the accumulator at
that moment; whenever every sentinel write finds its key present (the
`no_blind_unset_sets` guard, which holds in particular when sentinels are
only used to remove previously set keys), no key of the result maps to
`'unset'` — such keys are deleted instead. -/
theorem merge_params_no_unset (sets : List (List (String × PVal)))
    (h : no_blind_unset_sets (fun _ => none) sets = true) :
    ∀ k, merge_params sets k ≠ some (PVal.str "unset") :=
  merge_params_acc_no_unset sets (fun _ => none)
    (fun _ hcontra => Option.noConfusion hcontra) h

/-- Witness for the amended C3 at the spec's own example
`merge([{a:1,b:2}, {b:'unset'}, {c:3}])`, checked at key `b`. -/
theorem merge_params_no_unset_witness :
    merge_params [[("a", PVal.str "1"), ("b", PVal.str "2")],
      [("b", PVal.str "unset")], [("c", PVal.str "3")]] "b" ≠
      some (PVal.str "unset") :=
  merge_params_no_unset
    [[("a", PVal.str "1"), ("b", PVal.str "2")],
      [("b", PVal.str "unset")], [("c", PVal.str "3")]] (by decide) "b"

/-! ## Forwarded request: C7 and C8 -/

theorem pdel_other (p : Pm) (k k' : String) (h : ¬ k = k') : pdel p k' k = p k := by
  simp [pdel, h]

theorem foldl_pdel_none (ks : List String) :
    ∀ (p : Pm) (k : String), p k = none → (ks.foldl pdel p) k = none := by
  induction ks with
  | nil => intro p k h; exact h
  | cons a as ih =>
    intro p k h
    rw [List.foldl_cons]
    apply ih
    by_cases hk : k = a
    · simp [pdel, hk]
    · rw [pdel_other p k a hk]; exact h

theorem foldl_pdel_mem (ks : List String) :
    ∀ (p : Pm) (k : String), k ∈ ks → (ks.foldl pdel p) k = none := by
  induction ks with
  | nil => intro p k h; cases h
  | cons a as ih =>
    intro p k h
    rw [List.foldl_cons]
    rcases List.mem_cons.mp h with rfl | hmem
    · exact foldl_pdel_none as (pdel p k) k (by simp [pdel])
    · exact ih (pdel p a) k hmem

theorem array2str_other (p : Pm) (k k' : String) (h : ¬ k = k') :
    array2str p k' k = p k := by
  unfold array2str
  cases hpk : p k' with
  | none => rfl
  | some v =>
    cases v with
    | str s => rfl
    | num n => rfl
    | boolV b => rfl
    | listV l => simp [pset, h]

theorem foldl_array2str_not_mem (ks : List String) :
    ∀ (p : Pm) (k : String), k ∉ ks → (ks.foldl array2str p) k = p k := by
  induction ks with
  | nil => intro p k _; rfl
  | cons a as ih =>
    intro p k hk
    simp only [List.mem_cons, not_or] at hk
    rw [List.foldl_cons, ih (array2str p a) k hk.2, array2str_other p k a hk.1]

/-- C7: for every parameter set handed to `generate_image`, none of the
internally consumed keys `rounding`, `fix_resolution`, `host`, `port` is
present in the request actually forwarded to the service, even when those
keys appear in the merged parameter set. -/
theorem generate_image_request_strips_internal (params : Pm) (session : PVal)
    (save_on_server : Bool) :
    generate_image_request params session save_on_server "rounding" = none ∧
    generate_image_request params session save_on_server "fix_resolution" = none ∧
    generate_image_request params session save_on_server "host" = none ∧
    generate_image_request params session save_on_server "port" = none := by
  refine ⟨?_, ?_, ?_, ?_⟩ <;>
  · show (array_fixups.foldl array2str _) _ = none
    rw [foldl_array2str_not_mem _ _ _ (by decide)]
    exact foldl_pdel_mem _ _ _ (by decide)

/-- C8: `gen` does not treat a zero-area resolver result as a failure.
At truncated ideal dimensions 3162 x 3 (aspect `1000:1`), side 100,
rounding 64, `get_aspect_pixels` returns (3136, 0), and the caller stores
both values and submits the request: the forwarded parameter map carries
`width = 3136` and `height = 0`, contradicting the claim that no
zero-size generation request is submitted. -/
theorem gen_submits_zero_area :
    get_aspect_pixels 3162 3 100 64 = (3136, 0) ∧
    gen_submit_dims (fun _ => none) 3162 3 100 64 (PVal.str "sess") false
      "width" = some (PVal.num 3136) ∧
    gen_submit_dims (fun _ => none) 3162 3 100 64 (PVal.str "sess") false
      "height" = some (PVal.num 0) := by
  refine ⟨by decide, by decide, by decide⟩

/-! ## CatalogResolver: C4 -/

/-- C4: `substring_match` returns `found` with the entry's canonical name
exactly when the case-insensitive substring filter keeps exactly one
catalog entry; it returns `ambiguous` carrying all matches when more than
one entry matches, and `notFound` when none does. -/
theorem substring_match_spec (item : List Char) (l : List (List Char)) :
    (substring_match item l = MatchResult.notFound ↔
      l.filter (fun x => isSubL (casefold item) (casefold x)) = []) ∧
    (1 < (l.filter (fun x => isSubL (casefold item) (casefold x))).length →
      substring_match item l =
        MatchResult.ambiguous
          (l.filter (fun x => isSubL (casefold item) (casefold x)))) ∧
    (∀ m, l.filter (fun x => isSubL (casefold item) (casefold x)) = [m] →
      substring_match item l = MatchResult.found m ∧ m ∈ l ∧
        isSubL (casefold item) (casefold m) = true) ∧
    (∀ m, substring_match item l = MatchResult.found m →
      l.filter (fun x => isSubL (casefold item) (casefold x)) = [m]) := by
  have hdef : ∀ ms, l.filter (fun x => isSubL (casefold item) (casefold x)) = ms →
      substring_match item l =
        (if 1 < ms.length then MatchResult.ambiguous ms
         else if ms.length = 0 then MatchResult.notFound
         else MatchResult.found ms.headI) := by
    intro ms h
    show (if 1 < (l.filter (fun x => isSubL (casefold item) (casefold x))).length
          then MatchResult.ambiguous
            (l.filter (fun x => isSubL (casefold item) (casefold x)))
          else if (l.filter (fun x => isSubL (casefold item) (casefold x))).length = 0
          then MatchResult.notFound
          else MatchResult.found
            (l.filter (fun x => isSubL (casefold item) (casefold x))).headI) = _
    rw [h]
  rcases hfl : l.filter (fun x => isSubL (casefold item) (casefold x)) with
    _ | ⟨a, _ | ⟨b, rest⟩⟩
  · have h := hdef [] hfl
    norm_num at h
    refine ⟨by simp [h], by simp, by simp, ?_⟩
    intro m hm
    rw [h] at hm
    cases hm
  · have h := hdef [a] hfl
    norm_num [List.headI] at h
    refine ⟨by simp [h], by norm_num, ?_, ?_⟩
    · intro m hm
      injection hm with h1 h2
      subst h1
      have hmem : a ∈ l.filter (fun x => isSubL (casefold item) (casefold x)) := by
        rw [hfl]; exact List.mem_cons_self a []
      exact ⟨h, (List.mem_filter.mp hmem).1, (List.mem_filter.mp hmem).2⟩
    · intro m hm
      rw [h] at hm
      injection hm with h1
      rw [h1]
  · have h := hdef (a :: b :: rest) hfl
    have hlen : 1 < (a :: b :: rest).length := by simp
    rw [if_pos hlen] at h
    refine ⟨by simp [h], fun _ => h, by simp, ?_⟩
    intro m hm
    rw [h] at hm
    cases hm

/-- Witness for C4 at the spec's example: the query `turbo` against the
one-entry catalog resolves to `z_image_turbo_bf16`. -/
theorem substring_match_spec_witness :
    substring_match ("turbo".toList) ["z_image_turbo_bf16".toList] =
      MatchResult.found ("z_image_turbo_bf16".toList) ∧
    "z_image_turbo_bf16".toList ∈ ["z_image_turbo_bf16".toList] ∧
    isSubL (casefold "turbo".toList) (casefold "z_image_turbo_bf16".toList) = true :=
  (substring_match_spec "turbo".toList ["z_image_turbo_bf16".toList]).2.2.1
    ("z_image_turbo_bf16".toList) (by decide)

/-! ## LoRA de-duplication: C10 -/

theorem erase_foldl_step (q : List Char → Bool) :
    ∀ (ys acc : List (List Char)),
      ys.foldl (fun a l => if q l then a.erase l else a) acc =
        (ys.filter q).foldl (fun a l => a.erase l) acc := by
  intro ys
  induction ys with
  | nil => intro acc; rfl
  | cons y ys ih =>
    intro acc
    by_cases hq : q y = true
    · rw [List.foldl_cons, if_pos hq, List.filter_cons, if_pos hq,
        List.foldl_cons]
      exact ih (acc.erase y)
    · rw [List.foldl_cons, if_neg hq, List.filter_cons, if_neg hq]
      exact ih acc

theorem foldl_erase_cons (x : List Char) :
    ∀ (ys l : List (List Char)), (∀ y ∈ ys, y ≠ x) →
      ys.foldl (fun a e => a.erase e) (x :: l) =
        x :: ys.foldl (fun a e => a.erase e) l := by
  intro ys
  induction ys with
  | nil => intro l _; rfl
  | cons y ys ih =>
    intro l hy
    rw [List.foldl_cons, List.foldl_cons]
    have hxy : y ≠ x := hy y (List.mem_cons_self y ys)
    have herase : (x :: l).erase y = x :: l.erase y := by
      rw [List.erase_cons]
      simp [Ne.symm hxy]
    rw [herase]
    exact ih (l.erase y) (fun z hz => hy z (List.mem_cons_of_mem y hz))

theorem foldl_erase_filter (q : List Char → Bool) :
    ∀ l : List (List Char),
      (l.filter q).foldl (fun a e => a.erase e) l =
        l.filter (fun x => !(q x)) := by
  intro l
  induction l with
  | nil => rfl
  | cons x xs ih =>
    by_cases hq : q x = true
    · rw [List.filter_cons, if_pos hq, List.foldl_cons, List.erase_cons_head,
        List.filter_cons]
      have : (!(q x)) = false := by simp [hq]
      rw [if_neg (by simp [hq])]
      exact ih
    · rw [List.filter_cons, if_neg hq, List.filter_cons,
        if_pos (by simp [Bool.not_eq_true] at hq ⊢; exact hq)]
      have hne : ∀ y ∈ xs.filter q, y ≠ x := by
        intro y hyf
        have hqy := List.of_mem_filter hyf
        intro hyx
        rw [hyx] at hqy
        exact hq hqy
      rw [foldl_erase_cons x (xs.filter q) xs hne]
      rw [ih]

theorem dedup_loras_eq_filter (cli existing : List (List Char)) :
    dedup_loras cli existing =
      cli.filter (fun l => !(hasColon l && existing.contains (nameOf l))) := by
  unfold dedup_loras
  rw [erase_foldl_step (fun l => hasColon l && existing.contains (nameOf l))]
  exact foldl_erase_filter _ cli

theorem gen_lora_foldlM (catalog : List (List Char)) :
    ∀ (kept : List (List Char)) (acc out : List (List Char) × List (List Char)),
      kept.foldlM (lora_step catalog) acc = some out →
      ∃ names, out.1 = acc.1 ++ names ∧
        List.Forall₂ (fun l m =>
          substring_match (if hasColon l then nameOf l else l) catalog =
            MatchResult.found m) kept names := by
  intro kept
  induction kept with
  | nil =>
    intro acc out h
    simp only [List.foldlM_nil] at h
    cases h
    exact ⟨[], by simp, List.Forall₂.nil⟩
  | cons l ls ih =>
    intro acc out h
    simp only [List.foldlM_cons] at h
    cases hstep : lora_step catalog acc l with
    | none => rw [hstep] at h; cases h
    | some acc' =>
      rw [hstep] at h
      simp only [Option.bind_eq_bind, Option.some_bind] at h
      obtain ⟨names, hout, hrel⟩ := ih acc' out h
      unfold lora_step at hstep
      cases hmatch : substring_match (if hasColon l then nameOf l else l) catalog with
      | found m =>
        rw [hmatch] at hstep
        have hacc' : acc' = (acc.1 ++ [m],
            acc.2 ++ [if hasColon l then restOf l else ['1']]) :=
          (Option.some.inj hstep).symm
        refine ⟨m :: names, ?_, List.Forall₂.cons hmatch hrel⟩
        rw [hout, hacc']
        simp
      | ambiguous ms => rw [hmatch] at hstep; cases hstep
      | notFound => rw [hmatch] at hstep; cases hstep

/-- C10: the de-duplication loop keeps exactly the references that are
not (colon-suffixed with a name part already in the existing `loras`
list): a colon-suffixed reference whose name part already occurs is
skipped entirely, a reference without a colon is kept unconditionally,
and on success the final `loras` list is the existing list followed by
the resolved full names of the kept references in order. -/
theorem lora_dedup_spec (cli existing : List (List Char)) :
    dedup_loras cli existing =
      cli.filter (fun l => !(hasColon l && existing.contains (nameOf l))) ∧
    (∀ l, hasColon l = true → existing.contains (nameOf l) = true →
      l ∉ dedup_loras cli existing) ∧
    (∀ l, hasColon l = false → l ∈ cli → l ∈ dedup_loras cli existing) ∧
    (∀ catalog existingW out,
      gen_lora_phase catalog cli existing existingW = some out →
      ∃ names, out.1 = existing ++ names ∧
        List.Forall₂ (fun l m =>
            substring_match (if hasColon l then nameOf l else l) catalog =
              MatchResult.found m)
          (cli.filter (fun l => !(hasColon l && existing.contains (nameOf l))))
          names) := by
  refine ⟨dedup_loras_eq_filter cli existing, ?_, ?_, ?_⟩
  · intro l h1 h2 hmem
    rw [dedup_loras_eq_filter] at hmem
    have := List.of_mem_filter hmem
    rw [h1, h2] at this
    simp at this
  · intro l h1 hmem
    rw [dedup_loras_eq_filter]
    refine List.mem_filter.mpr ⟨hmem, ?_⟩
    rw [h1]
    simp
  · intro catalog existingW out h
    unfold gen_lora_phase at h
    rw [dedup_loras_eq_filter] at h
    exact gen_lora_foldlM catalog _ (existing, existingW) out h

/-- Witness for C10: with existing LoRA list `[zelda]`, the reference
`zelda:0.8` is skipped while the colon-free reference `ganon` is kept. -/
theorem lora_dedup_spec_witness :
    ("zelda:0.8".toList ∉
      dedup_loras ["zelda:0.8".toList, "ganon".toList] ["zelda".toList]) ∧
    ("ganon".toList ∈
      dedup_loras ["zelda:0.8".toList, "ganon".toList] ["zelda".toList]) :=
  ⟨(lora_dedup_spec ["zelda:0.8".toList, "ganon".toList] ["zelda".toList]).2.1
      ("zelda:0.8".toList) (by decide) (by decide),
    (lora_dedup_spec ["zelda:0.8".toList, "ganon".toList] ["zelda".toList]).2.2.1
      ("ganon".toList) (by decide) (by decide)⟩

/-! ## PostProcessPipeline: C5 and C9 -/

theorem cropStage_history (ops : Ops) (i : Img) :
    (cropStage ops i).history = i.history ++ cropHist ops := by
  unfold cropStage cropHist
  cases h : lookupOp ops "crop" with
  | none => simp
  | some v => cases v <;> simp [docrop]

theorem sizeStage_history (ops : Ops) (i : Img) :
    (sizeStage ops i).history = i.history ++ sizeHist ops := by
  unfold sizeStage sizeHist
  cases h : lookupOp ops "size" with
  | none => simp
  | some v =>
    cases v with
    | sizeV p =>
      by_cases hp : p < 100
      · simp [hp, doresize]
      · simp [hp]
    | cropV b => simp
    | sharpV r p t => simp
    | jpgV q => simp
    | metaV s => simp
    | sourceV s => simp
    | saveV f => simp

theorem sharpStage_history (ops : Ops) (i : Img) :
    (sharpStage ops i).history = i.history ++ sharpHist ops := by
  unfold sharpStage sharpHist
  cases h : lookupOp ops "sharp" with
  | none => simp
  | some v => cases v <;> simp [dosharp]

theorem jpgStage_history (ops : Ops) (i : Img) :
    (jpgStage ops i).history = i.history ++ jpgHist ops := by
  unfold jpgStage jpgHist
  cases h : lookupOp ops "jpg" with
  | none => simp
  | some v => cases v <;> simp [dojpg]

theorem process_apply_image (ops : Ops) (i : Img) :
    (process_apply ops i).1 =
      jpgStage ops (sharpStage ops (sizeStage ops (cropStage ops i))) := by
  unfold process_apply
  cases h : lookupOp ops "save" with
  | none => rfl
  | some v => cases v <;> rfl

theorem process_apply_lookup_eq (ops1 ops2 : Ops) (i : Img)
    (h : ∀ k, lookupOp ops1 k = lookupOp ops2 k) :
    process_apply ops1 i = process_apply ops2 i := by
  unfold process_apply cropStage sizeStage sharpStage jpgStage metaOf sourceOf
  rw [h "crop", h "size", h "sharp", h "jpg", h "meta", h "source", h "save"]

theorem lookup_filter_ne (p : String × OpVal → Bool) (ops : Ops) (k : String)
    (hp : ∀ v, p (k, v) = true) :
    lookupOp (ops.filter p) k = lookupOp ops k := by
  induction ops with
  | nil => rfl
  | cons kv rest ih =>
    obtain ⟨a, b⟩ := kv
    by_cases hk : (k == a) = true
    · have hka : k = a := beq_iff_eq.mp hk
      subst hka
      rw [List.filter_cons, if_pos (hp b)]
      simp [lookupOp, List.lookup]
    · simp only [Bool.not_eq_true] at hk
      by_cases hpkv : p (a, b) = true
      · rw [List.filter_cons, if_pos hpkv]
        simp only [lookupOp, List.lookup, hk]
        exact ih
      · rw [List.filter_cons, if_neg hpkv]
        simp only [lookupOp, List.lookup, hk]
        exact ih

/-- C5: `process.apply` applies the operations in the fixed order crop,
size, sharp, jpg, save regardless of the order in which the op dict was
populated: the whole result depends only on the key lookups, the image
part is the crop/size/sharp/jpg stage composition in that order, the
transform history appended is the fixed-order concatenation, removing
the `meta` and `source` entries leaves the image untouched, and `meta`
and `source` are consumed only by the save step (present exactly when
`save` is present), which embeds them alongside the final image. -/
theorem process_apply_spec :
    (∀ ops1 ops2 i, (∀ k, lookupOp ops1 k = lookupOp ops2 k) →
      process_apply ops1 i = process_apply ops2 i) ∧
    (∀ ops i, (process_apply ops i).1 =
      jpgStage ops (sharpStage ops (sizeStage ops (cropStage ops i)))) ∧
    (∀ ops i, (process_apply ops i).1.history = i.history ++ appliedOps ops) ∧
    (∀ ops i, (process_apply ops i).1 =
      (process_apply
        (ops.filter (fun kv => !(kv.1 == "meta") && !(kv.1 == "source"))) i).1) ∧
    (∀ ops i, (process_apply ops i).2 =
      match saveOf ops with
      | some f => saveStep f (metaOf ops) (sourceOf ops)
          (jpgStage ops (sharpStage ops (sizeStage ops (cropStage ops i))))
      | none => (none, false)) := by
  refine ⟨fun ops1 ops2 i h => process_apply_lookup_eq ops1 ops2 i h,
    process_apply_image, ?_, ?_, ?_⟩
  · intro ops i
    rw [process_apply_image, jpgStage_history, sharpStage_history,
      sizeStage_history, cropStage_history]
    unfold appliedOps
    simp [List.append_assoc]
  · intro ops i
    rw [process_apply_image, process_apply_image]
    unfold cropStage sizeStage sharpStage jpgStage
    rw [lookup_filter_ne _ ops "crop" (fun v => rfl),
        lookup_filter_ne _ ops "size" (fun v => rfl),
        lookup_filter_ne _ ops "sharp" (fun v => rfl),
        lookup_filter_ne _ ops "jpg" (fun v => rfl)]
  · intro ops i
    cases h : lookupOp ops "save" with
    | none => simp [process_apply, saveOf, h]
    | some v => cases v <;> simp [process_apply, saveOf, h]

/-- C9 (refuted): with a spec containing only the `save` operation,
`image_meta` is `None` and the unconditional metadata embedding of the
save branch raises, so `process.apply` never returns the image.  On the
(default) PNG path `PngInfo.add_text('parameters', None)` raises before
`image.save`: nothing at all is written.  On the JPEG path the file is
written (bit-identical pixel data, no metadata) and then
`json.loads(None)` raises.  Both outcomes are evaluated here at concrete
inputs; the final `true` is the raised-exception flag. -/
theorem process_apply_save_only_raises :
    process_apply [("save", OpVal.saveV "out.png")] (Img.mk 512 512 false []) =
      (Img.mk 512 512 false [], none, true) ∧
    process_apply [("save", OpVal.saveV "out.jpg")] (Img.mk 512 512 true []) =
      (Img.mk 512 512 true [],
        some (SaveRec.mk "out.jpg" none none true (Img.mk 512 512 true [])),
        true) := by
  exact ⟨rfl, rfl⟩

/-! ## SequencedNamer lemmas: decimal rendering -/

theorem toDecAux_fuel (fuel1 : Nat) :
    ∀ fuel2 n acc, n < fuel1 → n < fuel2 →
      toDecAux fuel1 n acc = toDecAux fuel2 n acc := by
  induction fuel1 with
  | zero => intro fuel2 n acc h1 _; omega
  | succ f1 ih =>
    intro fuel2 n acc h1 h2
    cases fuel2 with
    | zero => omega
    | succ f2 =>
      simp only [toDecAux]
      by_cases hn : n < 10
      · rw [if_pos hn, if_pos hn]
      · rw [if_neg hn, if_neg hn]
        exact ih f2 (n / 10) _ (by omega) (by omega)

theorem toDecAux_acc (fuel : Nat) :
    ∀ n acc, toDecAux fuel n acc = toDecAux fuel n [] ++ acc := by
  induction fuel with
  | zero => intro n acc; rfl
  | succ f ih =>
    intro n acc
    simp only [toDecAux]
    by_cases hn : n < 10
    · rw [if_pos hn, if_pos hn]
      rfl
    · rw [if_neg hn, if_neg hn]
      rw [ih (n / 10) (digitChar (n % 10) :: acc), ih (n / 10) [digitChar (n % 10)]]
      simp

theorem digitChar_val (d : Nat) (h : d < 10) : (digitChar d).toNat - 48 = d := by
  interval_cases d <;> rfl

theorem decval_append_digit (xs : List Char) (c : Char) :
    decval (xs ++ [c]) = 10 * decval xs + (c.toNat - 48) := by
  unfold decval
  rw [List.foldl_append]
  rfl

theorem decval_toDecimal (n : Nat) : decval (toDecimal n) = n := by
  induction n using Nat.strong_induction_on with
  | _ n ih =>
    by_cases hn : n < 10
    · unfold toDecimal
      simp only [toDecAux, if_pos hn]
      unfold decval
      simp [digitChar_val n hn]
    · unfold toDecimal
      simp only [toDecAux, if_neg hn]
      rw [toDecAux_acc]
      rw [toDecAux_fuel n (n / 10 + 1) (n / 10) [] (by omega) (by omega)]
      have hdec : toDecAux (n / 10 + 1) (n / 10) [] = toDecimal (n / 10) := rfl
      rw [hdec, decval_append_digit, ih (n / 10) (by omega),
        digitChar_val (n % 10) (by omega)]
      omega

theorem decval_replicate_zero (k : Nat) (s : List Char) :
    decval (List.replicate k '0' ++ s) = decval s := by
  induction k with
  | zero => rfl
  | succ m ih =>
    rw [List.replicate_succ]
    simpa using ih

theorem decval_zfill (pad n : Nat) : decval (zfill pad n) = n := by
  unfold zfill
  rw [decval_replicate_zero, decval_toDecimal]

theorem zfill_inj (pad a b : Nat) (h : zfill pad a = zfill pad b) : a = b := by
  have ha := decval_zfill pad a
  have hb := decval_zfill pad b
  rw [← ha, ← hb, h]

/-! ## SequencedNamer lemmas: rendering is injective in `seq` -/

theorem renderL_cons_lit (vars : List Char → Option (List Char)) (pad s : Nat)
    (str : List Char) (rest : List Tok) :
    format_filename (Tok.lit str :: rest) vars pad s =
      str ++ format_filename rest vars pad s := rfl

theorem renderL_cons_seq (vars : List Char → Option (List Char)) (pad s : Nat)
    (rest : List Tok) :
    format_filename (Tok.var seqName :: rest) vars pad s =
      zfill pad s ++ format_filename rest vars pad s := by
  simp [format_filename, renderL, withSeq]

theorem renderL_cons_braced_seq (vars : List Char → Option (List Char))
    (pad s : Nat) (rest : List Tok) :
    format_filename (Tok.braced seqName :: rest) vars pad s =
      zfill pad s ++ format_filename rest vars pad s := by
  simp [format_filename, renderL, withSeq]

theorem renderL_cons_var (vars : List Char → Option (List Char)) (pad s : Nat)
    (v : List Char) (hv : ¬ v = seqName) (rest : List Tok) :
    format_filename (Tok.var v :: rest) vars pad s =
      (match vars v with
       | some sub => sub
       | none => '$' :: v) ++ format_filename rest vars pad s := by
  simp [format_filename, renderL, withSeq, hv]

theorem renderL_cons_braced (vars : List Char → Option (List Char)) (pad s : Nat)
    (v : List Char) (hv : ¬ v = seqName) (rest : List Tok) :
    format_filename (Tok.braced v :: rest) vars pad s =
      (match vars v with
       | some sub => sub
       | none => '$' :: lbrace :: (v ++ [rbrace])) ++
        format_filename rest vars pad s := by
  simp [format_filename, renderL, withSeq, hv]

theorem length_format (vars : List Char → Option (List Char)) (pad s : Nat) :
    ∀ tmpl : List Tok,
      (format_filename tmpl vars pad s).length =
        baseLen vars tmpl + seqCount tmpl * (zfill pad s).length := by
  intro tmpl
  induction tmpl with
  | nil => simp [format_filename, renderL, baseLen, seqCount]
  | cons t rest ih =>
    cases t with
    | lit str =>
      rw [renderL_cons_lit, List.length_append, ih]
      simp only [baseLen, seqCount]
      ring
    | var v =>
      by_cases hv : v = seqName
      · subst hv
        rw [renderL_cons_seq, List.length_append, ih]
        simp only [baseLen, seqCount, if_true]
        ring
      · rw [renderL_cons_var vars pad s v hv, List.length_append, ih]
        simp only [baseLen, seqCount, if_neg hv]
        cases hvv : vars v with
        | some sub =>
          simp only []
          ring
        | none =>
          simp only [List.length_cons]
          ring
    | braced v =>
      by_cases hv : v = seqName
      · subst hv
        rw [renderL_cons_braced_seq, List.length_append, ih]
        simp only [baseLen, seqCount, if_true]
        ring
      · rw [renderL_cons_braced vars pad s v hv, List.length_append, ih]
        simp only [baseLen, seqCount, if_neg hv]
        cases hvv : vars v with
        | some sub =>
          simp only []
          ring
        | none =>
          simp only [List.length_cons, List.length_append, List.length_nil]
          ring

theorem hasSeqPlaceholder_cons_lit (s : List Char) (rest : List Tok) :
    hasSeqPlaceholder (Tok.lit s :: rest) = hasSeqPlaceholder rest := by
  unfold hasSeqPlaceholder
  rw [List.contains_cons, List.contains_cons]
  have h1 : (Tok.var seqName == Tok.lit s) = false := by
    rw [beq_eq_false_iff_ne]
    exact fun hc => Tok.noConfusion hc
  have h2 : (Tok.braced seqName == Tok.lit s) = false := by
    rw [beq_eq_false_iff_ne]
    exact fun hc => Tok.noConfusion hc
  rw [h1, h2, Bool.false_or, Bool.false_or]

theorem hasSeqPlaceholder_cons_var (v : List Char) (rest : List Tok)
    (hv : ¬ v = seqName) :
    hasSeqPlaceholder (Tok.var v :: rest) = hasSeqPlaceholder rest := by
  unfold hasSeqPlaceholder
  rw [List.contains_cons, List.contains_cons]
  have h1 : (Tok.var seqName == Tok.var v) = false := by
    rw [beq_eq_false_iff_ne]
    intro hc
    injection hc with h'
    exact hv h'.symm
  have h2 : (Tok.braced seqName == Tok.var v) = false := by
    rw [beq_eq_false_iff_ne]
    exact fun hc => Tok.noConfusion hc
  rw [h1, h2, Bool.false_or, Bool.false_or]

theorem hasSeqPlaceholder_cons_braced (v : List Char) (rest : List Tok)
    (hv : ¬ v = seqName) :
    hasSeqPlaceholder (Tok.braced v :: rest) = hasSeqPlaceholder rest := by
  unfold hasSeqPlaceholder
  rw [List.contains_cons, List.contains_cons]
  have h1 : (Tok.var seqName == Tok.braced v) = false := by
    rw [beq_eq_false_iff_ne]
    exact fun hc => Tok.noConfusion hc
  have h2 : (Tok.braced seqName == Tok.braced v) = false := by
    rw [beq_eq_false_iff_ne]
    intro hc
    injection hc with h'
    exact hv h'.symm
  rw [h1, h2, Bool.false_or, Bool.false_or]

theorem seq_chunk_inj (vars : List Char → Option (List Char)) (pad : Nat)
    (rest : List Tok) (a b : Nat)
    (heq : zfill pad a ++ format_filename rest vars pad a =
      zfill pad b ++ format_filename rest vars pad b) : a = b := by
  have hlen := congrArg List.length heq
  rw [List.length_append, List.length_append, length_format vars pad a rest,
    length_format vars pad b rest] at hlen
  rw [show (zfill pad a).length +
        (baseLen vars rest + seqCount rest * (zfill pad a).length) =
      ((zfill pad a).length + seqCount rest * (zfill pad a).length) +
        baseLen vars rest from by ring] at hlen
  rw [show (zfill pad b).length +
        (baseLen vars rest + seqCount rest * (zfill pad b).length) =
      ((zfill pad b).length + seqCount rest * (zfill pad b).length) +
        baseLen vars rest from by ring] at hlen
  have h2 := Nat.add_right_cancel hlen
  have h3 : (1 + seqCount rest) * (zfill pad a).length =
      (1 + seqCount rest) * (zfill pad b).length := by
    rw [Nat.add_mul, Nat.add_mul, Nat.one_mul, Nat.one_mul]
    exact h2
  have hzlen : (zfill pad a).length = (zfill pad b).length :=
    Nat.eq_of_mul_eq_mul_left (by omega) h3
  obtain ⟨hz, -⟩ := List.append_inj heq hzlen
  exact zfill_inj pad a b hz

theorem format_inj (vars : List Char → Option (List Char)) (pad : Nat) :
    ∀ tmpl : List Tok, hasSeqPlaceholder tmpl = true →
      ∀ a b, format_filename tmpl vars pad a = format_filename tmpl vars pad b →
        a = b := by
  intro tmpl
  induction tmpl with
  | nil => intro h; simp [hasSeqPlaceholder] at h
  | cons t rest ih =>
    intro h a b heq
    cases t with
    | lit s =>
      rw [hasSeqPlaceholder_cons_lit] at h
      rw [renderL_cons_lit, renderL_cons_lit] at heq
      exact ih h a b (List.append_cancel_left heq)
    | var v =>
      by_cases hv : v = seqName
      · subst hv
        rw [renderL_cons_seq, renderL_cons_seq] at heq
        exact seq_chunk_inj vars pad rest a b heq
      · rw [hasSeqPlaceholder_cons_var v rest hv] at h
        rw [renderL_cons_var vars pad a v hv, renderL_cons_var vars pad b v hv] at heq
        exact ih h a b (List.append_cancel_left heq)
    | braced v =>
      by_cases hv : v = seqName
      · subst hv
        rw [renderL_cons_braced_seq, renderL_cons_braced_seq] at heq
        exact seq_chunk_inj vars pad rest a b heq
      · rw [hasSeqPlaceholder_cons_braced v rest hv] at h
        rw [renderL_cons_braced vars pad a v hv,
          renderL_cons_braced vars pad b v hv] at heq
        exact ih h a b (List.append_cancel_left heq)

/-! ## SequencedNamer lemmas: the guard regex on the raw text -/

theorem isPrefixL_self_append (n ys : List Char) :
    isPrefixL n (n ++ ys) = true := by
  induction n with
  | nil => rfl
  | cons c cs ih => simp [isPrefixL, ih]

theorem isSubL_self_append (n ys : List Char) : isSubL n (n ++ ys) = true := by
  cases n with
  | nil =>
    cases ys with
    | nil => rfl
    | cons c cs => simp [isSubL, isPrefixL]
  | cons c cs =>
    rw [List.cons_append]
    simp only [isSubL]
    have hp : isPrefixL (c :: cs) (c :: (cs ++ ys)) = true := by
      rw [← List.cons_append]
      exact isPrefixL_self_append (c :: cs) ys
    rw [hp, Bool.true_or]

theorem isSubL_append_left (n : List Char) :
    ∀ pre h, isSubL n h = true → isSubL n (pre ++ h) = true := by
  intro pre
  induction pre with
  | nil => intro h hh; exact hh
  | cons c cs ih =>
    intro h hh
    rw [List.cons_append]
    simp only [isSubL]
    rw [ih h hh, Bool.or_true]

theorem contains_var_seq_hasDollar :
    ∀ tmpl : List Tok, tmpl.contains (Tok.var seqName) = true →
      hasDollarSeq tmpl = true := by
  intro tmpl
  induction tmpl with
  | nil => intro h; simp [List.contains_nil] at h
  | cons t rest ih =>
    intro h
    rw [List.contains_cons] at h
    rcases (Bool.or_eq_true _ _).mp h with h1 | h2
    · have ht : t = Tok.var seqName := (beq_iff_eq.mp h1).symm
      subst ht
      show isSubL dollarSeq (rawText (Tok.var seqName :: rest)) = true
      have hraw : rawText (Tok.var seqName :: rest) =
          dollarSeq ++ rawText rest := rfl
      rw [hraw]
      exact isSubL_self_append dollarSeq (rawText rest)
    · show isSubL dollarSeq (rawText (t :: rest)) = true
      have hraw : rawText (t :: rest) = tokRaw t ++ rawText rest := rfl
      rw [hraw]
      exact isSubL_append_left dollarSeq (tokRaw t) (rawText rest) (ih h2)

theorem format_const_of_no_seq (vars : List Char → Option (List Char))
    (pad : Nat) :
    ∀ tmpl : List Tok, tmpl.contains (Tok.var seqName) = false →
      tmpl.contains (Tok.braced seqName) = false →
      ∀ a b, format_filename tmpl vars pad a = format_filename tmpl vars pad b := by
  intro tmpl
  induction tmpl with
  | nil => intro _ _ a b; rfl
  | cons t rest ih =>
    intro h1 h2 a b
    rw [List.contains_cons] at h1 h2
    have h1' : (Tok.var seqName == t) = false ∧
        rest.contains (Tok.var seqName) = false := by
      constructor
      · cases hx : (Tok.var seqName == t)
        · rfl
        · rw [hx, Bool.true_or] at h1; exact h1
      · cases hx : rest.contains (Tok.var seqName)
        · rfl
        · rw [hx, Bool.or_true] at h1; exact h1
    have h2' : (Tok.braced seqName == t) = false ∧
        rest.contains (Tok.braced seqName) = false := by
      constructor
      · cases hx : (Tok.braced seqName == t)
        · rfl
        · rw [hx, Bool.true_or] at h2; exact h2
      · cases hx : rest.contains (Tok.braced seqName)
        · rfl
        · rw [hx, Bool.or_true] at h2; exact h2
    cases t with
    | lit s =>
      rw [renderL_cons_lit, renderL_cons_lit, ih h1'.2 h2'.2 a b]
    | var v =>
      have hv : ¬ v = seqName := by
        intro hcontra
        subst hcontra
        rw [beq_self_eq_true] at h1'
        exact Bool.noConfusion h1'.1
      rw [renderL_cons_var vars pad a v hv, renderL_cons_var vars pad b v hv,
        ih h1'.2 h2'.2 a b]
    | braced v =>
      have hv : ¬ v = seqName := by
        intro hcontra
        subst hcontra
        rw [beq_self_eq_true] at h2'
        exact Bool.noConfusion h2'.1
      rw [renderL_cons_braced vars pad a v hv, renderL_cons_braced vars pad b v hv,
        ih h1'.2 h2'.2 a b]

/-! ## SequencedNamer lemmas: the collision loop -/

theorem exists_fresh (f : Nat → List Char) (hf : Function.Injective f)
    (fs : List (List Char)) : ∃ k, k ≤ fs.length ∧ f k ∉ fs := by
  by_contra hcon
  push_neg at hcon
  have hsub : (Finset.range (fs.length + 1)).image f ⊆ fs.toFinset := by
    intro x hx
    obtain ⟨k, hk, rfl⟩ := Finset.mem_image.mp hx
    have hk' : k ≤ fs.length := by
      have := Finset.mem_range.mp hk
      omega
    exact List.mem_toFinset.mpr (hcon k hk')
  have hcard : fs.length + 1 ≤ fs.toFinset.card := by
    calc fs.length + 1 = ((Finset.range (fs.length + 1)).image f).card := by
          rw [Finset.card_image_of_injective _ hf, Finset.card_range]
      _ ≤ fs.toFinset.card := Finset.card_le_card hsub
  have hle := List.toFinset_card_le fs
  omega

theorem choose_name_some_spec (fs : List (List Char)) (tmpl : List Tok)
    (vars : List Char → Option (List Char)) (pad : Nat) :
    ∀ fuel seq r, choose_name fs tmpl vars pad fuel seq = some r →
      r.1 = format_filename tmpl vars pad r.2 ∧ seq ≤ r.2 ∧
      (∀ j, seq ≤ j → j < r.2 → format_filename tmpl vars pad j ∈ fs) := by
  intro fuel
  induction fuel with
  | zero =>
    intro seq r h
    simp only [choose_name] at h
    by_cases hc : (fs.contains (format_filename tmpl vars pad seq) &&
        hasDollarSeq tmpl) = true
    · rw [if_pos hc] at h; cases h
    · rw [if_neg hc] at h
      cases h
      refine ⟨rfl, le_refl seq, ?_⟩
      intro j hj1 hj2
      omega
  | succ n ih =>
    intro seq r h
    simp only [choose_name] at h
    by_cases hc : (fs.contains (format_filename tmpl vars pad seq) &&
        hasDollarSeq tmpl) = true
    · rw [if_pos hc] at h
      obtain ⟨i1, i2, i3⟩ := ih (seq + 1) r h
      refine ⟨i1, by omega, ?_⟩
      intro j hj1 hj2
      by_cases hj : j = seq
      · subst hj
        exact List.elem_iff.mp ((Bool.and_eq_true _ _).mp hc).1
      · exact i3 j (by omega) hj2
    · rw [if_neg hc] at h
      cases h
      refine ⟨rfl, le_refl seq, ?_⟩
      intro j hj1 hj2
      omega

theorem choose_name_no_dollar (fs : List (List Char)) (tmpl : List Tok)
    (vars : List Char → Option (List Char)) (pad : Nat)
    (h : hasDollarSeq tmpl = false) :
    ∀ fuel seq, choose_name fs tmpl vars pad fuel seq =
      some (format_filename tmpl vars pad seq, seq) := by
  intro fuel seq
  have hc : ¬((fs.contains (format_filename tmpl vars pad seq) &&
      hasDollarSeq tmpl) = true) := by
    rw [h, Bool.and_false]
    simp
  cases fuel with
  | zero =>
    simp only [choose_name]
    rw [if_neg hc]
  | succ n =>
    simp only [choose_name]
    rw [if_neg hc]

theorem choose_name_fresh (fs : List (List Char)) (tmpl : List Tok)
    (vars : List Char → Option (List Char)) (pad : Nat)
    (hg : hasDollarSeq tmpl = true) :
    ∀ fuel seq,
      (∃ k, k ≤ fuel ∧ format_filename tmpl vars pad (seq + k) ∉ fs) →
      ∃ r, choose_name fs tmpl vars pad fuel seq = some r ∧ r.1 ∉ fs := by
  intro fuel
  induction fuel with
  | zero =>
    rintro seq ⟨k, hk, hfresh⟩
    have hk0 : k = 0 := by omega
    subst hk0
    simp only [Nat.add_zero] at hfresh
    have hc : ¬((fs.contains (format_filename tmpl vars pad seq) &&
        hasDollarSeq tmpl) = true) := by
      intro hcc
      exact hfresh (List.elem_iff.mp ((Bool.and_eq_true _ _).mp hcc).1)
    refine ⟨(format_filename tmpl vars pad seq, seq), ?_, hfresh⟩
    simp only [choose_name]
    rw [if_neg hc]
  | succ n ih =>
    rintro seq ⟨k, hk, hfresh⟩
    by_cases hc : (fs.contains (format_filename tmpl vars pad seq) &&
        hasDollarSeq tmpl) = true
    · have hmem : format_filename tmpl vars pad seq ∈ fs :=
        List.elem_iff.mp ((Bool.and_eq_true _ _).mp hc).1
      have hk0 : k ≠ 0 := by
        intro h0
        subst h0
        simp only [Nat.add_zero] at hfresh
        exact hfresh hmem
      have hshift : format_filename tmpl vars pad (seq + 1 + (k - 1)) ∉ fs := by
        rw [show seq + 1 + (k - 1) = seq + k from by omega]
        exact hfresh
      obtain ⟨r, hr, hrf⟩ := ih (seq + 1) ⟨k - 1, by omega, hshift⟩
      refine ⟨r, ?_, hrf⟩
      simp only [choose_name]
      rw [if_pos hc]
      exact hr
    · refine ⟨(format_filename tmpl vars pad seq, seq), ?_, ?_⟩
      · simp only [choose_name]
        rw [if_neg hc]
      · intro hmem
        exact hc ((Bool.and_eq_true _ _).mpr ⟨List.elem_iff.mpr hmem, hg⟩)

theorem choose_name_diverges (fs : List (List Char)) (tmpl : List Tok)
    (vars : List Char → Option (List Char)) (pad : Nat)
    (hg : hasDollarSeq tmpl = true)
    (hconst : ∀ a b, format_filename tmpl vars pad a =
      format_filename tmpl vars pad b)
    (seq0 : Nat) (hmem : format_filename tmpl vars pad seq0 ∈ fs) :
    ∀ fuel seq, choose_name fs tmpl vars pad fuel seq = none := by
  intro fuel
  induction fuel with
  | zero =>
    intro seq
    have hc : (fs.contains (format_filename tmpl vars pad seq) &&
        hasDollarSeq tmpl) = true := by
      refine (Bool.and_eq_true _ _).mpr ⟨?_, hg⟩
      rw [hconst seq seq0]
      exact List.elem_iff.mpr hmem
    simp only [choose_name]
    rw [if_pos hc]
  | succ n ih =>
    intro seq
    have hc : (fs.contains (format_filename tmpl vars pad seq) &&
        hasDollarSeq tmpl) = true := by
      refine (Bool.and_eq_true _ _).mpr ⟨?_, hg⟩
      rw [hconst seq seq0]
      exact List.elem_iff.mpr hmem
    simp only [choose_name]
    rw [if_pos hc]
    exact ih (seq + 1)

/-- C6 counterexample: the braced template `genai-${seq}.png` contains a
`seq` placeholder and the rendered name `genai-0001.png` already exists,
yet `gen` returns that same existing name (next seq 2): the loop guard is
`re.search(r'\$seq', template)` on the raw text, which `${seq}` does not
match, so no re-rendering happens — refuting the claim that the name is
re-rendered until a non-existing one is found. -/
theorem gen_next_name_counterexample :
    hasSeqPlaceholder braced_example_tmpl = true ∧
    gen_next_name ["genai-0001.png".toList] braced_example_tmpl
      namer_example_vars 4 1 = some ("genai-0001.png".toList, 2) ∧
    "genai-0001.png".toList ∈ ["genai-0001.png".toList] := by
  refine ⟨by decide, by decide, by decide⟩

/-- C6 (amended): the loop's guard is the raw-text regex
`re.search(r'\$seq', template)`, not seq-placeholder membership.
Whenever the loop terminates, the returned name is the rendering of
(next seq - 1) — so the next-image sequence value is exactly one greater
than the value that produced the name, however many collisions were
skipped — and every skipped value rendered an existing file.  When the
raw text does not match, the same fixed name is returned once, existing
or not (even if a `${seq}` placeholder is present).  When the raw text
matches and the template really has a `seq` placeholder, the loop finds
a non-existing name (fuel `|fs| + 1` suffices); a `$seq`-form
placeholder always makes the raw text match, so ordinary templates get
the claimed behaviour.  When the raw text matches without any `seq`
placeholder (such as a `$seqx` variable) and the fixed name exists, the
loop never terminates (`none` at every fuel). -/
theorem gen_next_name_spec (fs : List (List Char)) (tmpl : List Tok)
    (vars : List Char → Option (List Char)) (pad seq0 : Nat) :
    (∀ r, gen_next_name fs tmpl vars pad seq0 = some r →
      r.1 = format_filename tmpl vars pad (r.2 - 1) ∧ seq0 < r.2 ∧
      (∀ j, seq0 ≤ j → j < r.2 - 1 → format_filename tmpl vars pad j ∈ fs)) ∧
    (hasDollarSeq tmpl = false →
      gen_next_name fs tmpl vars pad seq0 =
        some (format_filename tmpl vars pad seq0, seq0 + 1)) ∧
    (hasDollarSeq tmpl = true → hasSeqPlaceholder tmpl = true →
      ∃ r, gen_next_name fs tmpl vars pad seq0 = some r ∧ r.1 ∉ fs) ∧
    (tmpl.contains (Tok.var seqName) = true → hasDollarSeq tmpl = true) ∧
    (hasDollarSeq tmpl = true → hasSeqPlaceholder tmpl = false →
      format_filename tmpl vars pad seq0 ∈ fs →
      ∀ fuel, choose_name fs tmpl vars pad fuel seq0 = none) := by
  refine ⟨?_, ?_, ?_, contains_var_seq_hasDollar tmpl, ?_⟩
  · intro r h
    rw [gen_next_name] at h
    obtain ⟨r0, hr0, hmap⟩ := Option.map_eq_some'.mp h
    obtain ⟨i1, i2, i3⟩ :=
      choose_name_some_spec fs tmpl vars pad (fs.length + 1) seq0 r0 hr0
    have hr : r = (r0.1, r0.2 + 1) := hmap.symm
    subst hr
    refine ⟨?_, by omega, ?_⟩
    · show r0.1 = format_filename tmpl vars pad (r0.2 + 1 - 1)
      rw [Nat.add_sub_cancel]
      exact i1
    · intro j hj1 hj2
      refine i3 j hj1 ?_
      have : j < r0.2 + 1 - 1 := hj2
      omega
  · intro hg
    rw [gen_next_name, choose_name_no_dollar fs tmpl vars pad hg]
    rfl
  · intro hg hp
    have hinj : Function.Injective
        (fun k => format_filename tmpl vars pad (seq0 + k)) := by
      intro x y hxy
      have := format_inj vars pad tmpl hp (seq0 + x) (seq0 + y) hxy
      omega
    obtain ⟨k, hk, hfresh⟩ := exists_fresh _ hinj fs
    obtain ⟨r0, hr0, hrf⟩ := choose_name_fresh fs tmpl vars pad hg
      (fs.length + 1) seq0 ⟨k, by omega, hfresh⟩
    refine ⟨(r0.1, r0.2 + 1), ?_, hrf⟩
    rw [gen_next_name, hr0]
    rfl
  · intro hg hp hmem fuel
    have h1 : tmpl.contains (Tok.var seqName) = false := by
      cases hx : tmpl.contains (Tok.var seqName)
      · rfl
      · exfalso
        unfold hasSeqPlaceholder at hp
        rw [hx, Bool.true_or] at hp
        exact Bool.noConfusion hp
    have h2 : tmpl.contains (Tok.braced seqName) = false := by
      cases hx : tmpl.contains (Tok.braced seqName)
      · rfl
      · exfalso
        unfold hasSeqPlaceholder at hp
        rw [hx, Bool.or_true] at hp
        exact Bool.noConfusion hp
    exact choose_name_diverges fs tmpl vars pad hg
      (format_const_of_no_seq vars pad tmpl h1 h2) seq0 hmem fuel seq0

/-- Witness for the amended C6 at the spec's example: template
`$pre-$seq.$ext` with `pre = genai`, `ext = png`, pad 4, starting seq 1,
and `genai-0001.png` on disk: the chosen name is the rendering of
(next seq - 1) = 2, the next seq exceeds the start, the skipped seq 1
rendered an existing file, and the `$seq` placeholder makes the guard
regex match. -/
theorem gen_next_name_spec_witness :
    "genai-0002.png".toList =
      format_filename namer_example_tmpl namer_example_vars 4 (3 - 1) ∧
    (1 : Nat) < 3 ∧
    format_filename namer_example_tmpl namer_example_vars 4 1 ∈
      ["genai-0001.png".toList] ∧
    hasDollarSeq namer_example_tmpl = true :=
  ⟨((gen_next_name_spec ["genai-0001.png".toList] namer_example_tmpl
        namer_example_vars 4 1).1 ("genai-0002.png".toList, 3) (by decide)).1,
    ((gen_next_name_spec ["genai-0001.png".toList] namer_example_tmpl
        namer_example_vars 4 1).1 ("genai-0002.png".toList, 3) (by decide)).2.1,
    ((gen_next_name_spec ["genai-0001.png".toList] namer_example_tmpl
        namer_example_vars 4 1).1 ("genai-0002.png".toList, 3) (by decide)).2.2
      1 (by decide) (by decide),
    (gen_next_name_spec ["genai-0001.png".toList] namer_example_tmpl
        namer_example_vars 4 1).2.2.2.1 (by decide)⟩
